import Mathlib

/-!
Shallow embedding of the host-side core of `wgpu-mandelbrot`:
the dispatch-shape planner (`src/compute.rs`), the histogram-based
colouring algorithm (`src/colour.rs`), and the double-buffer swap
(`src/double_buffered.rs`, `src/typed_buffer.rs`).

Machine integers (`u32`, `usize`) are modelled as `Nat`; the fallible
`usize → u32` conversion is explicit.  `f32` values are modelled as exact
rationals (`Rat`): every `f32` the colouring code produces is a quotient
`acc / total_samples` of small integers, and the specification's claims
about them are stated "within floating-point tolerance", so the exact
rational computation is the intended mathematical content.  Rust panics
(slice indexing out of bounds, `Option::unwrap`, `unwrap_or_else` with a
panicking closure, failed `try_into`) are modelled by `Option`: `none`
means the Rust code panics.
-/

namespace Mandelbrot

/-- `src/compute.rs`: workgroup size for the `mandelbrot` compute entry point. -/
def MANDELBROT_WORKGROUP_SIZE_Y : Nat := 64

/-- `src/compute.rs`: dispatch `y` size for the `mandelbrot` compute entry point. -/
def MANDELBROT_DISPATCH_SIZE_Y : Nat := 1024

/-- Largest value representable in a `u32`. -/
def U32_MAX : Nat := 4294967295

/-- `usize::try_into::<u32>()`: succeeds exactly when the value fits in a `u32`. -/
def u32_try_from (n : Nat) : Option Nat :=
  if n ≤ U32_MAX then some n else none

/-- `src/compute.rs#mandelbrot_dispatch_size`:
`let x = (total_work / (MANDELBROT_DISPATCH_SIZE_Y * MANDELBROT_WORKGROUP_SIZE_Y) as usize + 1).try_into().unwrap(); (x, MANDELBROT_DISPATCH_SIZE_Y, 1)`.
`none` models the `unwrap` panic when the computed `x` does not fit in a `u32`. -/
def mandelbrot_dispatch_size (total_work : Nat) : Option (Nat × Nat × Nat) :=
  match u32_try_from
      (total_work / (MANDELBROT_DISPATCH_SIZE_Y * MANDELBROT_WORKGROUP_SIZE_Y) + 1) with
  | none => none
  | some x => some (x, MANDELBROT_DISPATCH_SIZE_Y, 1)

/-- `src/pixel.rs#Complex` (two `f32` fields, modelled as exact rationals). -/
structure Complex where
  real : Rat
  imaginary : Rat
deriving DecidableEq, Repr

/-- `src/pixel.rs#Pixel`. -/
structure Pixel where
  x : Nat
  y : Nat
  escaped : Nat
  current_value : Complex
  iteration_count : Nat
deriving DecidableEq, Repr

/-- `src/screen.rs#Size`. -/
structure Size where
  width : Nat
  height : Nat
deriving DecidableEq, Repr

/-- `src/colour.rs#ColourRange`. -/
structure ColourRange where
  escaped : Nat
  value : Rat
deriving DecidableEq, Repr

/-- Lookup in an association list, modelling `FnvHashMap::get`:
the first entry with the given key wins. -/
def mapLookup {β : Type} (k : Nat) : List (Nat × β) → Option β
  | [] => none
  | (k', v) :: rest => if k' = k then some v else mapLookup k rest

/-- Insert/overwrite in an association list, modelling `FnvHashMap::insert`
(and the write-back of `Entry::or_insert_with`): the first entry with the
key is replaced in place; a missing key is appended. -/
def mapInsert {β : Type} (k : Nat) (v : β) : List (Nat × β) → List (Nat × β)
  | [] => [(k, v)]
  | (k', v') :: rest =>
      if k' = k then (k, v) :: rest else (k', v') :: mapInsert k v rest

/-- The keys of an association list. -/
def mapKeys {β : Type} (m : List (Nat × β)) : List Nat := m.map Prod.fst

/-- Sum of the stored counts, modelling `histogram.values().sum()`. -/
def sumCounts (m : List (Nat × Nat)) : Nat := (m.map Prod.snd).sum

/-- `src/colour.rs#HistogramColouring` (hash maps modelled as association lists). -/
structure HistogramColouring where
  total_samples : Nat
  bucket_labels : List Nat
  histogram : List (Nat × Nat)
  histogram_ranges : List (Nat × Rat)
deriving DecidableEq, Repr

namespace HistogramColouring

/-- `src/colour.rs#HistogramColouring::new`. -/
def new : HistogramColouring :=
  { total_samples := 0
    bucket_labels := []
    histogram := []
    histogram_ranges := [] }

/-- `src/colour.rs#HistogramColouring::reset`. -/
def reset (_self : HistogramColouring) : HistogramColouring :=
  { total_samples := 0
    bucket_labels := []
    histogram := []
    histogram_ranges := [] }

end HistogramColouring

/-- One step of the accumulation loop body for a newly escaped pixel's
iteration count (`src/colour.rs` lines 77–85): `or_insert_with` pushes the
label to `bucket_labels` and inserts `0` when the key is unseen, then the
count and `total_samples` are incremented. -/
def histAdd (s : HistogramColouring) (ic : Nat) : HistogramColouring :=
  match mapLookup ic s.histogram with
  | some c =>
      { s with
        histogram := mapInsert ic (c + 1) s.histogram
        total_samples := s.total_samples + 1 }
  | none =>
      { s with
        bucket_labels := s.bucket_labels ++ [ic]
        histogram := mapInsert ic 1 s.histogram
        total_samples := s.total_samples + 1 }

/-- The histogram-state effect of folding in a whole list of newly escaped
pixels, ignoring the `colour_ranges` writes. -/
def histAddAll (s : HistogramColouring) (newly : List Pixel) : HistogramColouring :=
  newly.foldl (fun acc p => histAdd acc p.iteration_count) s

/-- `colour_ranges[i].escaped = 1` (`src/colour.rs` lines 74–75): `none`
models the slice-indexing panic when `i` is out of bounds. -/
def setEscaped (cr : List ColourRange) (i : Nat) : Option (List ColourRange) :=
  if h : i < cr.length then
    some (cr.set i { cr.get ⟨i, h⟩ with escaped := 1 })
  else
    none

/-- The `for pixel in newly_escaped_pixels` loop (`src/colour.rs` lines 71–86):
threads the histogram state and the colour-range array through each pixel. -/
def foldNewly (sz : Size) :
    List Pixel → HistogramColouring → List ColourRange →
    Option (HistogramColouring × List ColourRange)
  | [], s, cr => some (s, cr)
  | p :: rest, s, cr =>
      match setEscaped cr (p.y * sz.width + p.x) with
      | none => none
      | some cr' => foldNewly sz rest (histAdd s p.iteration_count) cr'

/-- The CDF-building loop (`src/colour.rs` lines 106–112): for each bucket
label in order, insert `acc / total_samples` into `histogram_ranges`, then
add the bucket's count to `acc`.  `none` models the `unwrap` panic when a
bucket label is missing from `histogram`. -/
def buildRanges (hist : List (Nat × Nat)) (total : Nat) :
    List Nat → Nat → List (Nat × Rat) → Option (List (Nat × Rat))
  | [], _, ranges => some ranges
  | l :: rest, acc, ranges =>
      match mapLookup l hist with
      | none => none
      | some c =>
          buildRanges hist total rest (acc + c)
            (mapInsert l ((acc : Rat) / (total : Rat)) ranges)

/-- The body of the parallel recolouring loop for one cell
(`src/colour.rs` lines 117–127): `none` models the `all_pixels[index]`
indexing panic and the `unwrap_or_else` lookup-failure panic. -/
def recolourOne (ranges : List (Nat × Rat)) (all_pixels : List Pixel)
    (i : Nat) (c : ColourRange) : Option ColourRange :=
  match all_pixels[i]? with
  | none => none
  | some p =>
      if p.escaped = 1 then
        match mapLookup p.iteration_count ranges with
        | none => none
        | some v => some { c with value := v }
      else
        some c

/-- The `par_iter_mut().enumerate()` recolouring loop
(`src/colour.rs` lines 114–128): each cell is updated independently of the
others, so the parallel loop is modelled as an indexed traversal. -/
def recolourAll (ranges : List (Nat × Rat)) (all_pixels : List Pixel) :
    Nat → List ColourRange → Option (List ColourRange)
  | _, [] => some []
  | i, c :: rest =>
      match recolourOne ranges all_pixels i c with
      | none => none
      | some c' =>
          match recolourAll ranges all_pixels (i + 1) rest with
          | none => none
          | some rest' => some (c' :: rest')

/-- `src/colour.rs#HistogramColouring::update_colours`: returns the updated
histogram state and colour-range array; `none` models a panic.
`debug_assert` checks are debug-only and do not abort release builds, so
they are not modelled as panics.  `Vec::sort` on `u32` labels is a stable
ascending sort, which on a list of naturals is extensionally insertion
sort. -/
def updateColours (s : HistogramColouring) (sz : Size)
    (all_pixels newly_escaped : List Pixel) (colour_ranges : List ColourRange) :
    Option (HistogramColouring × List ColourRange) :=
  if newly_escaped.isEmpty then
    some (s, colour_ranges)
  else
    let s0 : HistogramColouring := { s with histogram_ranges := [] }
    match foldNewly sz newly_escaped s0 colour_ranges with
    | none => none
    | some (s1, cr1) =>
        let s2 : HistogramColouring :=
          { s1 with bucket_labels := s1.bucket_labels.insertionSort (· ≤ ·) }
        match buildRanges s2.histogram s2.total_samples s2.bucket_labels 0 [] with
        | none => none
        | some ranges =>
            let s3 : HistogramColouring := { s2 with histogram_ranges := ranges }
            match recolourAll ranges all_pixels 0 cr1 with
            | none => none
            | some cr2 => some (s3, cr2)

/-- The histogram-state invariant claimed by the specification (§3):
`total_samples` is the sum of all histogram counts, and `bucket_labels`
contains exactly the keys of `histogram`, with no duplicates. -/
def Invariant (s : HistogramColouring) : Prop :=
  s.total_samples = sumCounts s.histogram ∧
  s.bucket_labels.Perm (mapKeys s.histogram) ∧
  (mapKeys s.histogram).Nodup

instance (s : HistogramColouring) : Decidable (Invariant s) := by
  unfold Invariant
  infer_instance

/-- Spec-side measure: the number of recorded diverged samples whose
iteration count is strictly smaller than `l` (the sum of the counts of all
buckets with label `< l`). -/
def countBelow (m : List (Nat × Nat)) (l : Nat) : Nat :=
  ((m.filter (fun e => e.1 < l)).map Prod.snd).sum

/-- Partial sums of bucket counts along a label list: the counts of the
labels in `ls` that are strictly smaller than `l`. -/
def sumBelowIn (hist : List (Nat × Nat)) (ls : List Nat) (l : Nat) : Nat :=
  ((ls.filter (fun x => x < l)).map (fun x => (mapLookup x hist).getD 0)).sum

/-- `src/double_buffered.rs#DoubleBuffered` (also
`src/typed_buffer.rs#DoubleBuffer`): two buffers of the same payload type.
The GPU buffer handles carry no further observable structure here. -/
structure DoubleBuffered (A : Type) where
  input : A
  output : A
deriving DecidableEq, Repr

/-- `src/double_buffered.rs#DoubleBuffered::swap`:
`std::mem::swap(&mut self.input, &mut self.output)`. -/
def DoubleBuffered.swap {A : Type} (d : DoubleBuffered A) : DoubleBuffered A :=
  { input := d.output, output := d.input }

/-- Concrete values used to instantiate the theorems below. -/
def cpx0 : Complex := ⟨0, 0⟩

/-- A pixel at `(0,0)` that escaped after 3 iterations. -/
def pixA : Pixel := ⟨0, 0, 1, cpx0, 3⟩

/-- A pixel at `(1,0)` that escaped after 5 iterations. -/
def pixB : Pixel := ⟨1, 0, 1, cpx0, 5⟩

/-- A pixel at `(0,0)` that has not escaped. -/
def pixLive0 : Pixel := ⟨0, 0, 0, cpx0, 0⟩

/-- An escaped pixel whose iteration count (99) is never a histogram bucket
in the scenarios below. -/
def pixStray : Pixel := ⟨1, 0, 1, cpx0, 99⟩

/-- A default (zeroed) colour range. -/
def cr0 : ColourRange := ⟨0, 0⟩

/-- A `1×1` screen. -/
def sz1 : Size := ⟨1, 1⟩

/-- A `2×1` screen. -/
def sz2 : Size := ⟨2, 1⟩

/-- The histogram state reached from `new` by folding in `pixA` and `pixB`
(one sample each at iteration counts 3 and 5). -/
def histEx2 : HistogramColouring := ⟨2, [3, 5], [(3, 1), (5, 1)], [(3, 0), (5, (1 : Rat) / 2)]⟩

/-- The colour ranges produced in that scenario. -/
def crEx2 : List ColourRange := [⟨1, 0⟩, ⟨1, (1 : Rat) / 2⟩]

/-- C1: for every `total_work` in `[0, 50_000_000]`,
`mandelbrot_dispatch_size` returns `(x, y, 1)` with
`x * y * MANDELBROT_WORKGROUP_SIZE_Y ≥ total_work` and `y ≤ 65535`; in
particular `x ≥ 1`, so `total_work = 0` yields a non-zero-sized dispatch
and no panic. -/
theorem dispatch_size_safe (tw : Nat) (h : tw ≤ 50000000) :
    ∃ x, mandelbrot_dispatch_size tw = some (x, MANDELBROT_DISPATCH_SIZE_Y, 1) ∧
      tw ≤ x * (MANDELBROT_DISPATCH_SIZE_Y * MANDELBROT_WORKGROUP_SIZE_Y) ∧
      MANDELBROT_DISPATCH_SIZE_Y ≤ 65535 ∧ 1 ≤ x := by
  refine ⟨tw / 65536 + 1, ?_, ?_, by decide, Nat.le_add_left 1 _⟩
  · simp only [mandelbrot_dispatch_size, u32_try_from, U32_MAX,
      MANDELBROT_DISPATCH_SIZE_Y, MANDELBROT_WORKGROUP_SIZE_Y]
    rw [if_pos (by omega)]
  · simp only [MANDELBROT_DISPATCH_SIZE_Y, MANDELBROT_WORKGROUP_SIZE_Y]
    omega

/-- C1 witness: instantiation at `total_work = 0`. -/
theorem dispatch_size_safe_witness :
    (0 : Nat) ≤ 50000000 ∧
      ∃ x, mandelbrot_dispatch_size 0 = some (x, MANDELBROT_DISPATCH_SIZE_Y, 1) ∧
        0 ≤ x * (MANDELBROT_DISPATCH_SIZE_Y * MANDELBROT_WORKGROUP_SIZE_Y) ∧
        MANDELBROT_DISPATCH_SIZE_Y ≤ 65535 ∧ 1 ≤ x :=
  ⟨by decide, dispatch_size_safe 0 (by decide)⟩

/-- C6 counterexample: at `total_work = 65536` the function returns
`x = 2` even though `x = 1` already satisfies `x * y * B ≥ total_work`
(`(2 - 1) * 1024 * 64 = 65536 ≥ 65536`), so the returned `x` is not the
minimum with `x * y * B ≥ total_work`. -/
theorem dispatch_size_not_minimal :
    mandelbrot_dispatch_size 65536 = some (2, 1024, 1) ∧
      ¬ (2 - 1) * (1024 * 64) < 65536 := by
  constructor
  · rfl
  · decide

/-- C6 amended: the returned `x` is the minimum `x` with
`x * y * B > total_work` (strictly): `(x - 1) * y * B ≤ total_work` and
`total_work < x * y * B`, with `y = MANDELBROT_DISPATCH_SIZE_Y` and
`B = MANDELBROT_WORKGROUP_SIZE_Y`. -/
theorem dispatch_size_minimal_strict (tw x y z : Nat)
    (h : mandelbrot_dispatch_size tw = some (x, y, z)) :
    y = MANDELBROT_DISPATCH_SIZE_Y ∧ z = 1 ∧
      (x - 1) * (MANDELBROT_DISPATCH_SIZE_Y * MANDELBROT_WORKGROUP_SIZE_Y) ≤ tw ∧
      tw < x * (MANDELBROT_DISPATCH_SIZE_Y * MANDELBROT_WORKGROUP_SIZE_Y) := by
  simp only [mandelbrot_dispatch_size, u32_try_from, U32_MAX,
    MANDELBROT_DISPATCH_SIZE_Y, MANDELBROT_WORKGROUP_SIZE_Y] at h ⊢
  by_cases hc : tw / (1024 * 64) + 1 ≤ 4294967295
  · rw [if_pos hc] at h
    simp only [Option.some.injEq, Prod.mk.injEq] at h
    obtain ⟨hx, hy, hz⟩ := h
    refine ⟨hy.symm, hz.symm, ?_, ?_⟩ <;> omega
  · rw [if_neg hc] at h
    exact absurd h (by simp)

/-- C6 amended witness: instantiation at `total_work = 0`. -/
theorem dispatch_size_minimal_strict_witness :
    mandelbrot_dispatch_size 0 = some (1, MANDELBROT_DISPATCH_SIZE_Y, 1) ∧
      (MANDELBROT_DISPATCH_SIZE_Y = MANDELBROT_DISPATCH_SIZE_Y ∧ (1 : Nat) = 1 ∧
        (1 - 1) * (MANDELBROT_DISPATCH_SIZE_Y * MANDELBROT_WORKGROUP_SIZE_Y) ≤ 0 ∧
        0 < 1 * (MANDELBROT_DISPATCH_SIZE_Y * MANDELBROT_WORKGROUP_SIZE_Y)) :=
  ⟨by decide, dispatch_size_minimal_strict 0 1 MANDELBROT_DISPATCH_SIZE_Y 1 (by decide)⟩

/-- C5: `update_colours` with an empty `newly_escaped_pixels` list leaves
the histogram state and every colour range (in particular every `value`)
unchanged. -/
theorem updateColours_empty_noop (s : HistogramColouring) (sz : Size)
    (ap : List Pixel) (cr : List ColourRange) :
    updateColours s sz ap [] cr = some (s, cr) :=
  rfl

/-- C10: `DoubleBuffered::swap` exactly exchanges `input` and `output` and
modifies nothing else, so swapping twice restores the original state. -/
theorem doubleBuffered_swap_involutive {A : Type} (d : DoubleBuffered A) :
    d.swap.input = d.output ∧ d.swap.output = d.input ∧ d.swap.swap = d :=
  ⟨rfl, rfl, rfl⟩

theorem mapLookup_mapInsert_self {β : Type} (k : Nat) (v : β) (m : List (Nat × β)) :
    mapLookup k (mapInsert k v m) = some v := by
  induction m with
  | nil => simp [mapInsert, mapLookup]
  | cons e rest ih =>
      obtain ⟨k0, v0⟩ := e
      by_cases h : k0 = k
      · subst h
        simp [mapInsert, mapLookup]
      · simp [mapInsert, mapLookup, h, ih]

theorem mapLookup_mapInsert_ne {β : Type} {k' k : Nat} (v : β) (m : List (Nat × β))
    (h : k' ≠ k) : mapLookup k' (mapInsert k v m) = mapLookup k' m := by
  have hne : ¬ k = k' := fun e => h e.symm
  induction m with
  | nil => simp only [mapInsert, mapLookup, if_neg hne]
  | cons e rest ih =>
      obtain ⟨k0, v0⟩ := e
      by_cases h0 : k0 = k
      · subst h0
        simp only [mapInsert, if_pos rfl, mapLookup, if_neg hne]
      · simp only [mapInsert, if_neg h0, mapLookup, ih]

theorem mem_mapKeys_iff_lookup_isSome {β : Type} (k : Nat) (m : List (Nat × β)) :
    k ∈ mapKeys m ↔ (mapLookup k m).isSome := by
  induction m with
  | nil => simp [mapKeys, mapLookup]
  | cons e rest ih =>
      obtain ⟨k0, v0⟩ := e
      simp only [mapKeys, List.map_cons, List.mem_cons, mapLookup]
      simp only [mapKeys] at ih
      by_cases h : k0 = k
      · subst h
        simp
      · rw [if_neg h]
        exact (or_iff_right (fun e => h e.symm)).trans ih

theorem mapKeys_mapInsert_of_lookup_some {β : Type} {k : Nat} {c : β} (v : β)
    {m : List (Nat × β)} (h : mapLookup k m = some c) :
    mapKeys (mapInsert k v m) = mapKeys m := by
  induction m with
  | nil => simp [mapLookup] at h
  | cons e rest ih =>
      obtain ⟨k0, v0⟩ := e
      by_cases h0 : k0 = k
      · subst h0
        simp [mapInsert, mapKeys]
      · have h' : mapLookup k rest = some c := by
          simpa only [mapLookup, if_neg h0] using h
        have hrec := ih h'
        simp only [mapKeys] at hrec
        simp only [mapInsert, if_neg h0, mapKeys, List.map_cons, hrec]

theorem mapKeys_mapInsert_of_lookup_none {β : Type} {k : Nat} (v : β)
    {m : List (Nat × β)} (h : mapLookup k m = none) :
    mapKeys (mapInsert k v m) = mapKeys m ++ [k] := by
  induction m with
  | nil => simp [mapInsert, mapKeys]
  | cons e rest ih =>
      obtain ⟨k0, v0⟩ := e
      by_cases h0 : k0 = k
      · subst h0
        simp [mapLookup] at h
      · have h' : mapLookup k rest = none := by
          simpa only [mapLookup, if_neg h0] using h
        have hrec := ih h'
        simp only [mapKeys] at hrec
        simp only [mapInsert, if_neg h0, mapKeys, List.map_cons, hrec, List.cons_append]

theorem sumCounts_mapInsert_of_lookup_some {k c : Nat} {m : List (Nat × Nat)}
    (h : mapLookup k m = some c) :
    sumCounts (mapInsert k (c + 1) m) = sumCounts m + 1 := by
  induction m with
  | nil => simp [mapLookup] at h
  | cons e rest ih =>
      obtain ⟨k0, v0⟩ := e
      by_cases h0 : k0 = k
      · subst h0
        have hv : v0 = c := by simpa [mapLookup] using h
        subst hv
        simp [mapInsert, sumCounts]
        omega
      · have h' : mapLookup k rest = some c := by
          simpa only [mapLookup, if_neg h0] using h
        have hrec := ih h'
        simp only [sumCounts] at hrec ⊢
        simp only [mapInsert, if_neg h0, List.map_cons, List.sum_cons]
        omega

theorem sumCounts_mapInsert_of_lookup_none {k : Nat} (v : Nat) {m : List (Nat × Nat)}
    (h : mapLookup k m = none) :
    sumCounts (mapInsert k v m) = sumCounts m + v := by
  induction m with
  | nil => simp [mapInsert, sumCounts]
  | cons e rest ih =>
      obtain ⟨k0, v0⟩ := e
      by_cases h0 : k0 = k
      · subst h0
        simp [mapLookup] at h
      · have h' : mapLookup k rest = none := by
          simpa only [mapLookup, if_neg h0] using h
        have hrec := ih h'
        simp only [sumCounts] at hrec ⊢
        simp only [mapInsert, if_neg h0, List.map_cons, List.sum_cons]
        omega

theorem histAdd_total (s : HistogramColouring) (ic : Nat) :
    (histAdd s ic).total_samples = s.total_samples + 1 := by
  unfold histAdd
  cases mapLookup ic s.histogram <;> rfl

theorem histAdd_histogram_ranges (s : HistogramColouring) (ic : Nat) :
    (histAdd s ic).histogram_ranges = s.histogram_ranges := by
  unfold histAdd
  cases mapLookup ic s.histogram <;> rfl

theorem histAdd_ranges_irrel (s : HistogramColouring) (r : List (Nat × Rat)) (ic : Nat) :
    histAdd { s with histogram_ranges := r } ic =
      { histAdd s ic with histogram_ranges := r } := by
  unfold histAdd
  cases mapLookup ic s.histogram <;> rfl

theorem histAddAll_ranges_irrel (s : HistogramColouring) (r : List (Nat × Rat))
    (ne : List Pixel) :
    histAddAll { s with histogram_ranges := r } ne =
      { histAddAll s ne with histogram_ranges := r } := by
  induction ne generalizing s with
  | nil => rfl
  | cons p rest ih =>
      show histAddAll (histAdd { s with histogram_ranges := r } p.iteration_count) rest = _
      rw [histAdd_ranges_irrel]
      exact ih (histAdd s p.iteration_count)

theorem histAddAll_total (s : HistogramColouring) (ne : List Pixel) :
    (histAddAll s ne).total_samples = s.total_samples + ne.length := by
  induction ne generalizing s with
  | nil => rfl
  | cons p rest ih =>
      show (histAddAll (histAdd s p.iteration_count) rest).total_samples = _
      rw [ih, histAdd_total]
      simp only [List.length_cons]
      omega

theorem histAdd_invariant {s : HistogramColouring} (hInv : Invariant s) (ic : Nat) :
    Invariant (histAdd s ic) := by
  obtain ⟨hTot, hPerm, hNodup⟩ := hInv
  unfold histAdd
  cases hl : mapLookup ic s.histogram with
  | some c =>
      refine ⟨?_, ?_, ?_⟩
      · simp only [sumCounts_mapInsert_of_lookup_some hl]
        omega
      · simpa [mapKeys_mapInsert_of_lookup_some (c + 1) hl] using hPerm
      · simpa [mapKeys_mapInsert_of_lookup_some (c + 1) hl] using hNodup
  | none =>
      have hnm : ic ∉ mapKeys s.histogram := by
        rw [mem_mapKeys_iff_lookup_isSome, hl]
        simp
      refine ⟨?_, ?_, ?_⟩
      · simp only [sumCounts_mapInsert_of_lookup_none 1 hl]
        omega
      · simp only [mapKeys_mapInsert_of_lookup_none 1 hl]
        exact hPerm.append (List.Perm.refl [ic])
      · simp only [mapKeys_mapInsert_of_lookup_none 1 hl]
        simp [List.nodup_append, hNodup, hnm]

theorem histAddAll_invariant {s : HistogramColouring} (hInv : Invariant s)
    (ne : List Pixel) : Invariant (histAddAll s ne) := by
  induction ne generalizing s with
  | nil => exact hInv
  | cons p rest ih =>
      exact ih (histAdd_invariant hInv p.iteration_count)

theorem mem_keys_histAdd_self (s : HistogramColouring) (ic : Nat) :
    ic ∈ mapKeys (histAdd s ic).histogram := by
  unfold histAdd
  cases hl : mapLookup ic s.histogram with
  | some c =>
      simp only [mapKeys_mapInsert_of_lookup_some (c + 1) hl]
      rw [mem_mapKeys_iff_lookup_isSome, hl]
      rfl
  | none =>
      simp [mapKeys_mapInsert_of_lookup_none 1 hl]

theorem mem_keys_histAdd_mono {k : Nat} {s : HistogramColouring}
    (h : k ∈ mapKeys s.histogram) (ic : Nat) :
    k ∈ mapKeys (histAdd s ic).histogram := by
  unfold histAdd
  cases hl : mapLookup ic s.histogram with
  | some c => simpa [mapKeys_mapInsert_of_lookup_some (c + 1) hl] using h
  | none => simp [mapKeys_mapInsert_of_lookup_none 1 hl, h]

theorem mem_keys_histAddAll_mono {k : Nat} {s : HistogramColouring}
    (h : k ∈ mapKeys s.histogram) (ne : List Pixel) :
    k ∈ mapKeys (histAddAll s ne).histogram := by
  induction ne generalizing s with
  | nil => exact h
  | cons p rest ih => exact ih (mem_keys_histAdd_mono h p.iteration_count)

theorem mem_keys_histAddAll_of_mem {s : HistogramColouring} {ne : List Pixel}
    {q : Pixel} (hq : q ∈ ne) :
    q.iteration_count ∈ mapKeys (histAddAll s ne).histogram := by
  induction ne generalizing s with
  | nil => cases hq
  | cons p rest ih =>
      rcases List.mem_cons.mp hq with h | h
      · subst h
        exact mem_keys_histAddAll_mono (mem_keys_histAdd_self s q.iteration_count) rest
      · exact ih h

theorem setEscaped_isSome {cr : List ColourRange} {i : Nat} (h : i < cr.length) :
    (setEscaped cr i).isSome := by
  simp [setEscaped, h]

theorem setEscaped_length {cr cru : List ColourRange} {i : Nat}
    (h : setEscaped cr i = some cru) : cru.length = cr.length := by
  unfold setEscaped at h
  split at h
  · cases h
    simp
  · cases h

theorem setEscaped_getElem_ne {cr cru : List ColourRange} {i j : Nat}
    (h : setEscaped cr i = some cru) (hij : i ≠ j) : cru[j]? = cr[j]? := by
  unfold setEscaped at h
  split at h
  · cases h
    exact List.getElem?_set_ne hij
  · cases h

theorem foldNewly_eq_histAddAll {sz : Size} {ne : List Pixel}
    {s s' : HistogramColouring} {cr cr' : List ColourRange}
    (h : foldNewly sz ne s cr = some (s', cr')) : s' = histAddAll s ne := by
  induction ne generalizing s cr with
  | nil =>
      simp only [foldNewly, Option.some.injEq, Prod.mk.injEq] at h
      exact h.1.symm
  | cons p rest ih =>
      simp only [foldNewly] at h
      cases hset : setEscaped cr (p.y * sz.width + p.x) with
      | none => rw [hset] at h; cases h
      | some cru =>
          rw [hset] at h
          exact ih h

theorem foldNewly_length {sz : Size} {ne : List Pixel}
    {s s' : HistogramColouring} {cr cr' : List ColourRange}
    (h : foldNewly sz ne s cr = some (s', cr')) : cr'.length = cr.length := by
  induction ne generalizing s cr with
  | nil =>
      simp only [foldNewly, Option.some.injEq, Prod.mk.injEq] at h
      rw [← h.2]
  | cons p rest ih =>
      simp only [foldNewly] at h
      cases hset : setEscaped cr (p.y * sz.width + p.x) with
      | none => rw [hset] at h; cases h
      | some cru =>
          rw [hset] at h
          rw [ih h, setEscaped_length hset]

theorem foldNewly_isSome {sz : Size} {ne : List Pixel}
    (s : HistogramColouring) {cr : List ColourRange}
    (h : ∀ q ∈ ne, q.y * sz.width + q.x < cr.length) :
    (foldNewly sz ne s cr).isSome := by
  induction ne generalizing s cr with
  | nil => simp [foldNewly]
  | cons p rest ih =>
      simp only [foldNewly]
      have hp : p.y * sz.width + p.x < cr.length :=
        h p (List.mem_cons_self p rest)
      cases hset : setEscaped cr (p.y * sz.width + p.x) with
      | none =>
          have := setEscaped_isSome hp
          rw [hset] at this
          cases this
      | some cru =>
          refine ih _ ?_
          intro q hq
          rw [setEscaped_length hset]
          exact h q (List.mem_cons_of_mem p hq)

theorem foldNewly_getElem_of_not_target {sz : Size} {ne : List Pixel}
    {s s' : HistogramColouring} {cr cr' : List ColourRange} {i : Nat}
    (h : foldNewly sz ne s cr = some (s', cr'))
    (hnt : ∀ q ∈ ne, q.y * sz.width + q.x ≠ i) : cr'[i]? = cr[i]? := by
  induction ne generalizing s cr with
  | nil =>
      simp only [foldNewly, Option.some.injEq, Prod.mk.injEq] at h
      rw [← h.2]
  | cons p rest ih =>
      simp only [foldNewly] at h
      cases hset : setEscaped cr (p.y * sz.width + p.x) with
      | none => rw [hset] at h; cases h
      | some cru =>
          rw [hset] at h
          rw [ih h (fun q hq => hnt q (List.mem_cons_of_mem p hq))]
          exact setEscaped_getElem_ne hset (hnt p (List.mem_cons_self p rest))

theorem buildRanges_isSome {hist : List (Nat × Nat)} (total : Nat) {ls : List Nat}
    (h : ∀ l ∈ ls, (mapLookup l hist).isSome) (acc : Nat) (r0 : List (Nat × Rat)) :
    (buildRanges hist total ls acc r0).isSome := by
  induction ls generalizing acc r0 with
  | nil => simp [buildRanges]
  | cons a rest ih =>
      simp only [buildRanges]
      cases hl : mapLookup a hist with
      | none =>
          have := h a (List.mem_cons_self a rest)
          rw [hl] at this
          cases this
      | some c => exact ih (fun l hml => h l (List.mem_cons_of_mem a hml)) _ _

theorem buildRanges_lookup_of_not_mem {hist : List (Nat × Nat)} {total : Nat}
    {ls : List Nat} {acc : Nat} {r0 r : List (Nat × Rat)} {k : Nat}
    (h : buildRanges hist total ls acc r0 = some r) (hk : k ∉ ls) :
    mapLookup k r = mapLookup k r0 := by
  induction ls generalizing acc r0 with
  | nil =>
      simp only [buildRanges, Option.some.injEq] at h
      rw [h]
  | cons a rest ih =>
      simp only [buildRanges] at h
      cases hl : mapLookup a hist with
      | none => rw [hl] at h; cases h
      | some c =>
          rw [hl] at h
          have hka : k ≠ a := fun e => hk (e ▸ List.mem_cons_self a rest)
          rw [ih h (fun hm => hk (List.mem_cons_of_mem a hm))]
          exact mapLookup_mapInsert_ne _ r0 hka

theorem mapLookup_mapInsert_isSome_mono {β : Type} {k k' : Nat} (v : β)
    {r : List (Nat × β)} (h : (mapLookup k r).isSome) :
    (mapLookup k (mapInsert k' v r)).isSome := by
  by_cases he : k = k'
  · subst he
    rw [mapLookup_mapInsert_self]
    rfl
  · rw [mapLookup_mapInsert_ne v r he]
    exact h

theorem buildRanges_lookup_isSome_mono {hist : List (Nat × Nat)} {total : Nat}
    {ls : List Nat} {acc : Nat} {r0 r : List (Nat × Rat)} {k : Nat}
    (h : buildRanges hist total ls acc r0 = some r)
    (hk : (mapLookup k r0).isSome) : (mapLookup k r).isSome := by
  induction ls generalizing acc r0 with
  | nil =>
      simp only [buildRanges, Option.some.injEq] at h
      rw [← h]
      exact hk
  | cons a rest ih =>
      simp only [buildRanges] at h
      cases hl : mapLookup a hist with
      | none => rw [hl] at h; cases h
      | some c =>
          rw [hl] at h
          exact ih h (mapLookup_mapInsert_isSome_mono _ hk)

theorem buildRanges_lookup_isSome_of_mem {hist : List (Nat × Nat)} {total : Nat}
    {ls : List Nat} {acc : Nat} {r0 r : List (Nat × Rat)} {k : Nat}
    (h : buildRanges hist total ls acc r0 = some r) (hk : k ∈ ls) :
    (mapLookup k r).isSome := by
  induction ls generalizing acc r0 with
  | nil => cases hk
  | cons a rest ih =>
      simp only [buildRanges] at h
      cases hl : mapLookup a hist with
      | none => rw [hl] at h; cases h
      | some c =>
          rw [hl] at h
          rcases List.mem_cons.mp hk with he | hm
          · subst he
            refine buildRanges_lookup_isSome_mono h ?_
            rw [mapLookup_mapInsert_self]
            rfl
          · exact ih h hm

theorem buildRanges_lookup_of_mem {hist : List (Nat × Nat)} {total : Nat}
    {ls : List Nat} {acc : Nat} {r0 r : List (Nat × Rat)}
    (h : buildRanges hist total ls acc r0 = some r)
    (hsort : ls.Sorted (· < ·)) :
    ∀ l ∈ ls, mapLookup l r = some (((acc + sumBelowIn hist ls l : Nat) : Rat) / (total : Rat)) := by
  induction ls generalizing acc r0 with
  | nil => intro l hl; cases hl
  | cons a rest ih =>
      intro l hl
      simp only [buildRanges] at h
      cases hla : mapLookup a hist with
      | none => rw [hla] at h; cases h
      | some c =>
          rw [hla] at h
          have hrest : ∀ x ∈ rest, a < x := (List.sorted_cons.mp hsort).1
          have hsort' : rest.Sorted (· < ·) := (List.sorted_cons.mp hsort).2
          rcases List.mem_cons.mp hl with he | hm
          · subst he
            have hnm : l ∉ rest := fun hmem => lt_irrefl l (hrest l hmem)
            rw [buildRanges_lookup_of_not_mem h hnm, mapLookup_mapInsert_self]
            have hfl : sumBelowIn hist (l :: rest) l = 0 := by
              have : (l :: rest).filter (fun x => x < l) = [] := by
                rw [List.filter_eq_nil_iff]
                intro x hx
                rcases List.mem_cons.mp hx with he' | hm'
                · subst he'
                  simp
                · simp only [decide_eq_true_eq]
                  exact fun hlt => absurd (hrest x hm') (by omega)
              simp [sumBelowIn, this]
            rw [hfl]
            norm_num
          · have hal : a < l := hrest l hm
            have := ih h hsort' l hm
            rw [this]
            have hsum : sumBelowIn hist (a :: rest) l = c + sumBelowIn hist rest l := by
              simp only [sumBelowIn, List.filter_cons, decide_eq_true_eq]
              rw [if_pos hal]
              simp [hla]
            rw [hsum]
            congr 1
            push_cast
            ring

theorem recolourOne_isSome {ranges : List (Nat × Rat)} {ap : List Pixel} {i : Nat}
    {p : Pixel} (hp : ap[i]? = some p)
    (hlk : p.escaped = 1 → (mapLookup p.iteration_count ranges).isSome)
    (c : ColourRange) : (recolourOne ranges ap i c).isSome := by
  unfold recolourOne
  simp only [hp]
  by_cases he : p.escaped = 1
  · rw [if_pos he]
    cases hl : mapLookup p.iteration_count ranges with
    | none =>
        have := hlk he
        rw [hl] at this
        cases this
    | some v => rfl
  · rw [if_neg he]
    rfl

theorem recolourAll_isSome {ranges : List (Nat × Rat)} {ap : List Pixel}
    {crl : List ColourRange} {i : Nat}
    (h : ∀ j, j < crl.length → ∃ p, ap[i + j]? = some p ∧
      (p.escaped = 1 → (mapLookup p.iteration_count ranges).isSome)) :
    (recolourAll ranges ap i crl).isSome := by
  induction crl generalizing i with
  | nil => simp [recolourAll]
  | cons c rest ih =>
      simp only [recolourAll]
      obtain ⟨p, hp, hlk⟩ := h 0 (by simp)
      rw [Nat.add_zero] at hp
      cases hone : recolourOne ranges ap i c with
      | none =>
          have := recolourOne_isSome hp hlk c
          rw [hone] at this
          cases this
      | some c1 =>
          have hrec : ∀ j, j < rest.length → ∃ p, ap[(i + 1) + j]? = some p ∧
              (p.escaped = 1 → (mapLookup p.iteration_count ranges).isSome) := by
            intro j hj
            have := h (j + 1) (by simpa using Nat.succ_lt_succ hj)
            simpa [Nat.add_assoc, Nat.add_comm 1 j] using this
          have := ih hrec
          cases hr : recolourAll ranges ap (i + 1) rest with
          | none => rw [hr] at this; cases this
          | some rest1 => rfl

theorem recolourAll_length {ranges : List (Nat × Rat)} {ap : List Pixel}
    {crl crl' : List ColourRange} {i : Nat}
    (h : recolourAll ranges ap i crl = some crl') : crl'.length = crl.length := by
  induction crl generalizing i crl' with
  | nil =>
      simp only [recolourAll, Option.some.injEq] at h
      rw [← h]
  | cons c rest ih =>
      simp only [recolourAll] at h
      cases hone : recolourOne ranges ap i c with
      | none => rw [hone] at h; cases h
      | some c1 =>
          rw [hone] at h
          cases hr : recolourAll ranges ap (i + 1) rest with
          | none => rw [hr] at h; cases h
          | some rest1 =>
              rw [hr] at h
              cases h
              simp [ih hr]

theorem recolourAll_getElem {ranges : List (Nat × Rat)} {ap : List Pixel}
    {crl crl' : List ColourRange} {i : Nat}
    (h : recolourAll ranges ap i crl = some crl') :
    ∀ j c, crl[j]? = some c →
      ∃ c', recolourOne ranges ap (i + j) c = some c' ∧ crl'[j]? = some c' := by
  induction crl generalizing i crl' with
  | nil =>
      intro j c hj
      simp at hj
  | cons c0 rest ih =>
      intro j c hj
      simp only [recolourAll] at h
      cases hone : recolourOne ranges ap i c0 with
      | none => rw [hone] at h; cases h
      | some c1 =>
          rw [hone] at h
          cases hr : recolourAll ranges ap (i + 1) rest with
          | none => rw [hr] at h; cases h
          | some rest1 =>
              rw [hr] at h
              cases h
              cases j with
              | zero =>
                  simp only [List.getElem?_cons_zero, Option.some.injEq] at hj
                  subst hj
                  exact ⟨c1, by simpa using hone, by simp⟩
              | succ j' =>
                  simp only [List.getElem?_cons_succ] at hj
                  obtain ⟨c', hc1, hc2⟩ := ih hr j' c hj
                  refine ⟨c', ?_, by simpa using hc2⟩
                  have : i + (j' + 1) = (i + 1) + j' := by omega
                  rw [this]
                  exact hc1

theorem sumBelowIn_keys_eq_countBelow {hist : List (Nat × Nat)} {l : Nat}
    (hnodup : (mapKeys hist).Nodup) :
    sumBelowIn hist (mapKeys hist) l = countBelow hist l := by
  induction hist with
  | nil => simp [sumBelowIn, countBelow, mapKeys]
  | cons e rest ih =>
      obtain ⟨k0, c0⟩ := e
      have hk0 : k0 ∉ mapKeys rest := by
        simp only [mapKeys, List.map_cons] at hnodup
        exact (List.nodup_cons.mp hnodup).1
      have hnodup' : (mapKeys rest).Nodup := by
        simp only [mapKeys, List.map_cons] at hnodup
        exact (List.nodup_cons.mp hnodup).2
      have hmapeq :
          (((mapKeys rest).filter (fun x => x < l)).map
              (fun x => (mapLookup x ((k0, c0) :: rest)).getD 0)) =
            (((mapKeys rest).filter (fun x => x < l)).map
              (fun x => (mapLookup x rest).getD 0)) := by
        refine List.map_congr_left ?_
        intro x hx
        have hxk : x ∈ mapKeys rest := (List.mem_filter.mp hx).1
        have hne : k0 ≠ x := fun e => hk0 (e ▸ hxk)
        simp [mapLookup, if_neg hne]
      have hlk0 : mapLookup k0 ((k0, c0) :: rest) = some c0 := by
        simp [mapLookup]
      simp only [sumBelowIn, mapKeys, List.map_cons, List.filter_cons]
      by_cases hc : k0 < l
      · simp only [decide_eq_true_eq, if_pos hc, List.map_cons, List.sum_cons]
        have h1 : (mapLookup k0 ((k0, c0) :: rest)).getD 0 = c0 := by rw [hlk0]; rfl
        rw [h1]
        simp only [mapKeys] at hmapeq
        rw [hmapeq]
        have h2 := ih hnodup'
        simp only [sumBelowIn, mapKeys] at h2
        rw [h2]
        simp only [countBelow, List.filter_cons, decide_eq_true_eq, if_pos hc,
          List.map_cons, List.sum_cons]
      · simp only [decide_eq_true_eq, if_neg hc]
        simp only [mapKeys] at hmapeq
        rw [hmapeq]
        have h2 := ih hnodup'
        simp only [sumBelowIn, mapKeys] at h2
        rw [h2]
        simp only [countBelow, List.filter_cons, decide_eq_true_eq, if_neg hc]

theorem sumBelowIn_eq_countBelow {hist : List (Nat × Nat)} {ls : List Nat} {l : Nat}
    (hperm : ls.Perm (mapKeys hist)) (hnodup : (mapKeys hist).Nodup) :
    sumBelowIn hist ls l = countBelow hist l := by
  have hpf : (ls.filter (fun x => x < l)).Perm ((mapKeys hist).filter (fun x => x < l)) :=
    hperm.filter _
  have hpm := (hpf.map (fun x => (mapLookup x hist).getD 0)).sum_eq
  calc sumBelowIn hist ls l
      = sumBelowIn hist (mapKeys hist) l := hpm
    _ = countBelow hist l := sumBelowIn_keys_eq_countBelow hnodup

theorem countBelow_eq_sumCounts_of_all_lt {hist : List (Nat × Nat)} {l : Nat}
    (h : ∀ k ∈ mapKeys hist, k < l) : countBelow hist l = sumCounts hist := by
  have hf : hist.filter (fun e => e.1 < l) = hist := by
    rw [List.filter_eq_self]
    intro e he
    simp only [decide_eq_true_eq]
    exact h e.1 (List.mem_map_of_mem Prod.fst he)
  unfold countBelow sumCounts
  rw [hf]

theorem countBelow_add_count_of_max {hist : List (Nat × Nat)} {l c : Nat}
    (hnodup : (mapKeys hist).Nodup) (hl : mapLookup l hist = some c)
    (hub : ∀ k ∈ mapKeys hist, k ≤ l) :
    countBelow hist l + c = sumCounts hist := by
  induction hist with
  | nil => simp [mapLookup] at hl
  | cons e rest ih =>
      obtain ⟨k0, c0⟩ := e
      have hk0 : k0 ∉ mapKeys rest := by
        simp only [mapKeys, List.map_cons] at hnodup
        exact (List.nodup_cons.mp hnodup).1
      have hnodup' : (mapKeys rest).Nodup := by
        simp only [mapKeys, List.map_cons] at hnodup
        exact (List.nodup_cons.mp hnodup).2
      by_cases he : k0 = l
      · subst he
        have hc : c0 = c := by simpa [mapLookup] using hl
        subst hc
        have hrest : countBelow rest k0 = sumCounts rest := by
          refine countBelow_eq_sumCounts_of_all_lt ?_
          intro k hk
          have hle : k ≤ k0 := hub k (List.mem_cons_of_mem _ hk)
          have hne : k ≠ k0 := fun e => hk0 (e ▸ hk)
          omega
        simp only [countBelow, List.filter_cons, decide_eq_true_eq,
          if_neg (lt_irrefl k0), sumCounts, List.map_cons, List.sum_cons]
        simp only [countBelow] at hrest
        simp only [sumCounts] at hrest
        omega
      · have hl' : mapLookup l rest = some c := by
          simpa [mapLookup, if_neg he] using hl
        have hk0l : k0 < l := by
          have hle : k0 ≤ l := hub k0 (List.mem_cons_self _ _)
          omega
        have hub' : ∀ k ∈ mapKeys rest, k ≤ l := by
          intro k hk
          exact hub k (List.mem_cons_of_mem _ hk)
        have hrec := ih hnodup' hl' hub'
        simp only [countBelow, List.filter_cons, decide_eq_true_eq, if_pos hk0l,
          sumCounts, List.map_cons, List.sum_cons]
        simp only [countBelow, sumCounts] at hrec
        omega

theorem updateColours_some_elim {s s' : HistogramColouring} {sz : Size}
    {ap ne : List Pixel} {cr cr' : List ColourRange} (hne : ne ≠ [])
    (h : updateColours s sz ap ne cr = some (s', cr')) :
    ∃ s1 cr1 ranges,
      foldNewly sz ne { s with histogram_ranges := [] } cr = some (s1, cr1) ∧
      buildRanges s1.histogram s1.total_samples
        (s1.bucket_labels.insertionSort (· ≤ ·)) 0 [] = some ranges ∧
      recolourAll ranges ap 0 cr1 = some cr' ∧
      s' = { s1 with
              bucket_labels := s1.bucket_labels.insertionSort (· ≤ ·)
              histogram_ranges := ranges } := by
  have hb : ne.isEmpty = false := by
    cases ne with
    | nil => exact absurd rfl hne
    | cons a l => rfl
  simp only [updateColours, hb, Bool.false_eq_true, if_false] at h
  cases hfold : foldNewly sz ne { s with histogram_ranges := [] } cr with
  | none => rw [hfold] at h; cases h
  | some pr =>
      obtain ⟨s1, cr1⟩ := pr
      rw [hfold] at h
      simp only at h
      cases hbr : buildRanges s1.histogram s1.total_samples
          (s1.bucket_labels.insertionSort (· ≤ ·)) 0 [] with
      | none => rw [hbr] at h; cases h
      | some ranges =>
          rw [hbr] at h
          simp only at h
          cases hrec : recolourAll ranges ap 0 cr1 with
          | none => rw [hrec] at h; cases h
          | some cr2 =>
              rw [hrec] at h
              simp only [Option.some.injEq, Prod.mk.injEq] at h
              refine ⟨s1, cr1, ranges, rfl, hbr, ?_, h.1.symm⟩
              rw [← h.2]
              exact hrec

theorem invariant_updateColours {s s' : HistogramColouring} {sz : Size}
    {ap ne : List Pixel} {cr cr' : List ColourRange} (hInv : Invariant s)
    (h : updateColours s sz ap ne cr = some (s', cr')) : Invariant s' := by
  by_cases hne : ne = []
  · subst hne
    have heq : updateColours s sz ap [] cr = some (s, cr) := rfl
    rw [heq] at h
    simp only [Option.some.injEq, Prod.mk.injEq] at h
    rw [← h.1]
    exact hInv
  · obtain ⟨s1, cr1, ranges, hfold, hbr, hrec, hs'⟩ := updateColours_some_elim hne h
    have hs1 : s1 = histAddAll { s with histogram_ranges := [] } ne :=
      foldNewly_eq_histAddAll hfold
    have hInv0 : Invariant { s with histogram_ranges := [] } :=
      ⟨hInv.1, hInv.2.1, hInv.2.2⟩
    have hInv1 : Invariant s1 := by
      rw [hs1]
      exact histAddAll_invariant hInv0 ne
    obtain ⟨hTot1, hPerm1, hNodup1⟩ := hInv1
    rw [hs']
    exact ⟨hTot1, (List.perm_insertionSort _ _).trans hPerm1, hNodup1⟩

theorem updateColours_ranges_eq {s s' : HistogramColouring} {sz : Size}
    {ap ne : List Pixel} {cr cr' : List ColourRange} (hInv : Invariant s)
    (hne : ne ≠ []) (h : updateColours s sz ap ne cr = some (s', cr')) :
    ∀ l ∈ mapKeys s'.histogram,
      mapLookup l s'.histogram_ranges =
        some ((countBelow s'.histogram l : Rat) / (s'.total_samples : Rat)) := by
  obtain ⟨s1, cr1, ranges, hfold, hbr, hrec, hs'⟩ := updateColours_some_elim hne h
  have hs1 : s1 = histAddAll { s with histogram_ranges := [] } ne :=
    foldNewly_eq_histAddAll hfold
  have hInv0 : Invariant { s with histogram_ranges := [] } :=
    ⟨hInv.1, hInv.2.1, hInv.2.2⟩
  have hInv1 : Invariant s1 := by
    rw [hs1]
    exact histAddAll_invariant hInv0 ne
  obtain ⟨hTot1, hPerm1, hNodup1⟩ := hInv1
  have hhist : s'.histogram = s1.histogram := by rw [hs']
  have htot : s'.total_samples = s1.total_samples := by rw [hs']
  have hranges : s'.histogram_ranges = ranges := by rw [hs']
  have hsort : (s1.bucket_labels.insertionSort (· ≤ ·)).Sorted (· ≤ ·) :=
    List.sorted_insertionSort _ _
  have hlskeys : (s1.bucket_labels.insertionSort (· ≤ ·)).Perm (mapKeys s1.histogram) :=
    (List.perm_insertionSort _ _).trans hPerm1
  have hlsnodup : (s1.bucket_labels.insertionSort (· ≤ ·)).Nodup :=
    hlskeys.nodup_iff.mpr hNodup1
  have hstrict : (s1.bucket_labels.insertionSort (· ≤ ·)).Sorted (· < ·) :=
    hsort.lt_of_le hlsnodup
  intro l hl
  rw [hhist] at hl
  have hlls : l ∈ s1.bucket_labels.insertionSort (· ≤ ·) := hlskeys.mem_iff.mpr hl
  have hbrl := buildRanges_lookup_of_mem hbr hstrict l hlls
  rw [hranges, hbrl, hhist, htot]
  simp only [Nat.zero_add]
  rw [sumBelowIn_eq_countBelow hlskeys hNodup1]

theorem countBelow_mono (hist : List (Nat × Nat)) {l1 l2 : Nat} (h : l1 ≤ l2) :
    countBelow hist l1 ≤ countBelow hist l2 := by
  unfold countBelow
  refine List.Sublist.sum_le_sum (List.Sublist.map _ ?_) (by
    intro a _
    exact Nat.zero_le a)
  refine List.monotone_filter_right hist ?_
  intro e he
  simp only [decide_eq_true_eq] at he ⊢
  omega

theorem countBelow_eq_zero {hist : List (Nat × Nat)} {l : Nat}
    (h : ∀ k ∈ mapKeys hist, ¬ k < l) : countBelow hist l = 0 := by
  unfold countBelow
  have hf : hist.filter (fun e => e.1 < l) = [] := by
    rw [List.filter_eq_nil_iff]
    intro e he
    simp only [decide_eq_true_eq]
    exact h e.1 (List.mem_map_of_mem Prod.fst he)
  rw [hf]
  rfl

theorem updateColours_total_eq {s s' : HistogramColouring} {sz : Size}
    {ap ne : List Pixel} {cr cr' : List ColourRange} (hne : ne ≠ [])
    (h : updateColours s sz ap ne cr = some (s', cr')) :
    s'.total_samples = s.total_samples + ne.length := by
  obtain ⟨s1, cr1, ranges, hfold, hbr, hrec, hs'⟩ := updateColours_some_elim hne h
  have hs1 : s1 = histAddAll { s with histogram_ranges := [] } ne :=
    foldNewly_eq_histAddAll hfold
  have : s'.total_samples = s1.total_samples := by rw [hs']
  rw [this, hs1, histAddAll_total]

theorem updateColours_ex2 :
    updateColours HistogramColouring.new sz2 [pixA, pixB] [pixA, pixB] [cr0, cr0]
      = some (histEx2, crEx2) := by
  norm_num [updateColours, HistogramColouring.new, sz2, pixA, pixB, cr0, foldNewly,
    setEscaped, histAdd, mapLookup, mapInsert, buildRanges, recolourAll, recolourOne,
    histEx2, crEx2, List.insertionSort, List.orderedInsert, sumCounts]

/-- C8: `new`, `reset` and `update_colours` all preserve the histogram
state invariant: `total_samples` equals the sum of all histogram counts,
and `bucket_labels` contains exactly the keys of `histogram` with no
duplicates. -/
theorem histogram_invariant_preserved :
    Invariant HistogramColouring.new ∧
      (∀ s, Invariant (HistogramColouring.reset s)) ∧
      (∀ (s : HistogramColouring) (sz : Size) (ap ne : List Pixel)
          (cr : List ColourRange) (s' : HistogramColouring) (cr' : List ColourRange),
        Invariant s → updateColours s sz ap ne cr = some (s', cr') → Invariant s') := by
  refine ⟨by decide, fun s => ⟨rfl, List.Perm.nil, List.nodup_nil⟩, ?_⟩
  intro s sz ap ne cr s' cr' hInv h
  exact invariant_updateColours hInv h

/-- C8 witness: the invariant propagates through a concrete run folding in
`pixA` and `pixB` on a `2×1` grid. -/
theorem histogram_invariant_preserved_witness :
    Invariant HistogramColouring.new ∧
      updateColours HistogramColouring.new sz2 [pixA, pixB] [pixA, pixB] [cr0, cr0]
        = some (histEx2, crEx2) ∧
      Invariant histEx2 :=
  ⟨by decide, updateColours_ex2,
    histogram_invariant_preserved.2.2 HistogramColouring.new sz2 [pixA, pixB]
      [pixA, pixB] [cr0, cr0] histEx2 crEx2 (by decide) updateColours_ex2⟩

/-- C2: after `update_colours` with a non-empty `newly_escaped` list, every
bucket label `l` of the histogram is mapped by `histogram_ranges` to the
number of recorded diverged samples with iteration count strictly smaller
than `l`, divided by `total_samples`. -/
theorem updateColours_cdf {s s' : HistogramColouring} {sz : Size}
    {ap ne : List Pixel} {cr cr' : List ColourRange} (hInv : Invariant s)
    (hne : ne ≠ []) (h : updateColours s sz ap ne cr = some (s', cr')) :
    ∀ l ∈ mapKeys s'.histogram,
      mapLookup l s'.histogram_ranges =
        some ((countBelow s'.histogram l : Rat) / (s'.total_samples : Rat)) :=
  updateColours_ranges_eq hInv hne h

/-- C2 witness: in the concrete two-sample run, bucket 5 maps to
`1 / 2` — one of the two samples has iteration count strictly below 5. -/
theorem updateColours_cdf_witness :
    Invariant HistogramColouring.new ∧ ([pixA, pixB] : List Pixel) ≠ [] ∧
      updateColours HistogramColouring.new sz2 [pixA, pixB] [pixA, pixB] [cr0, cr0]
        = some (histEx2, crEx2) ∧
      mapLookup 5 histEx2.histogram_ranges =
        some ((countBelow histEx2.histogram 5 : Rat) / (histEx2.total_samples : Rat)) :=
  ⟨by decide, by decide, updateColours_ex2,
    updateColours_cdf (by decide) (by decide) updateColours_ex2 5 (by decide)⟩

/-- C3: after `update_colours` with a non-empty `newly_escaped` list, the
`histogram_ranges` values are non-decreasing in the bucket label, the
smallest label maps to `0`, and the largest label's value plus its bucket's
share of `total_samples` is exactly `1` (exact in the rational model, hence
within floating-point tolerance in `f32`). -/
theorem updateColours_cdf_shape {s s' : HistogramColouring} {sz : Size}
    {ap ne : List Pixel} {cr cr' : List ColourRange} (hInv : Invariant s)
    (hne : ne ≠ []) (h : updateColours s sz ap ne cr = some (s', cr')) :
    (∀ l1 l2 v1 v2, l1 ∈ s'.bucket_labels → l2 ∈ s'.bucket_labels → l1 ≤ l2 →
      mapLookup l1 s'.histogram_ranges = some v1 →
      mapLookup l2 s'.histogram_ranges = some v2 → v1 ≤ v2) ∧
    (∀ l, l ∈ s'.bucket_labels → (∀ x ∈ s'.bucket_labels, l ≤ x) →
      mapLookup l s'.histogram_ranges = some 0) ∧
    (∀ l c v, l ∈ s'.bucket_labels → (∀ x ∈ s'.bucket_labels, x ≤ l) →
      mapLookup l s'.histogram = some c →
      mapLookup l s'.histogram_ranges = some v →
      v + (c : Rat) / (s'.total_samples : Rat) = 1) := by
  obtain ⟨hTot', hPerm', hNodup'⟩ := invariant_updateColours hInv h
  have hchar := updateColours_ranges_eq hInv hne h
  have htotpos : 0 < s'.total_samples := by
    rw [updateColours_total_eq hne h]
    cases ne with
    | nil => exact absurd rfl hne
    | cons a l => simp
  have htotQ : (0 : Rat) < (s'.total_samples : Rat) := by exact_mod_cast htotpos
  refine ⟨?_, ?_, ?_⟩
  · intro l1 l2 v1 v2 h1 h2 hle hv1 hv2
    have hk1 : l1 ∈ mapKeys s'.histogram := hPerm'.mem_iff.mp h1
    have hk2 : l2 ∈ mapKeys s'.histogram := hPerm'.mem_iff.mp h2
    have e1 : v1 = (countBelow s'.histogram l1 : Rat) / (s'.total_samples : Rat) := by
      have hx := hchar l1 hk1
      rw [hv1] at hx
      exact Option.some.inj hx
    have e2 : v2 = (countBelow s'.histogram l2 : Rat) / (s'.total_samples : Rat) := by
      have hx := hchar l2 hk2
      rw [hv2] at hx
      exact Option.some.inj hx
    rw [e1, e2]
    have hcle : countBelow s'.histogram l1 ≤ countBelow s'.histogram l2 :=
      countBelow_mono _ hle
    have hcleQ : (countBelow s'.histogram l1 : Rat) ≤ (countBelow s'.histogram l2 : Rat) := by
      exact_mod_cast hcle
    gcongr
  · intro l hl hmin
    have hk : l ∈ mapKeys s'.histogram := hPerm'.mem_iff.mp hl
    have hz : countBelow s'.histogram l = 0 := by
      refine countBelow_eq_zero ?_
      intro k hkm
      have hkl : k ∈ s'.bucket_labels := hPerm'.mem_iff.mpr hkm
      have := hmin k hkl
      omega
    rw [hchar l hk, hz]
    simp
  · intro l c v hl hmax hc hv
    have hk : l ∈ mapKeys s'.histogram := hPerm'.mem_iff.mp hl
    have hub : ∀ k ∈ mapKeys s'.histogram, k ≤ l :=
      fun k hkm => hmax k (hPerm'.mem_iff.mpr hkm)
    have hpart : countBelow s'.histogram l + c = sumCounts s'.histogram :=
      countBelow_add_count_of_max hNodup' hc hub
    have e : v = (countBelow s'.histogram l : Rat) / (s'.total_samples : Rat) := by
      have hx := hchar l hk
      rw [hv] at hx
      exact Option.some.inj hx
    rw [e, div_add_div_same, ← Nat.cast_add, hpart, ← hTot']
    exact div_self (ne_of_gt htotQ)

/-- C3 witness: in the concrete two-sample run, the largest bucket (5, with
one sample out of two) has value `1/2`, and `1/2 + 1/2 = 1`. -/
theorem updateColours_cdf_shape_witness :
    Invariant HistogramColouring.new ∧ ([pixA, pixB] : List Pixel) ≠ [] ∧
      5 ∈ histEx2.bucket_labels ∧ (∀ x ∈ histEx2.bucket_labels, x ≤ 5) ∧
      mapLookup 5 histEx2.histogram = some 1 ∧
      mapLookup 5 histEx2.histogram_ranges = some ((1 : Rat) / 2) ∧
      (1 : Rat) / 2 + ((1 : Nat) : Rat) / (histEx2.total_samples : Rat) = 1 :=
  ⟨by decide, by decide, by decide, by decide, by decide, rfl,
    (updateColours_cdf_shape (by decide) (by decide) updateColours_ex2).2.2 5 1
      ((1 : Rat) / 2) (by decide) (by decide) (by decide) rfl⟩

theorem updateColours_isSome_aux {s : HistogramColouring} {sz : Size}
    {ap ne : List Pixel} {cr : List ColourRange} (hInv : Invariant s)
    (hidx : ∀ q ∈ ne, q.y * sz.width + q.x < cr.length)
    (hlen : cr.length ≤ ap.length)
    (hbuck : ∀ p ∈ ap, p.escaped = 1 →
      p.iteration_count ∈ (histAddAll s ne).bucket_labels) :
    (updateColours s sz ap ne cr).isSome := by
  by_cases hne : ne = []
  · subst hne
    rfl
  · have hb : ne.isEmpty = false := by
      cases ne with
      | nil => exact absurd rfl hne
      | cons a l => rfl
    simp only [updateColours, hb, Bool.false_eq_true, if_false]
    have hfoldS := foldNewly_isSome { s with histogram_ranges := [] } hidx
    cases hfold : foldNewly sz ne { s with histogram_ranges := [] } cr with
    | none => rw [hfold] at hfoldS; cases hfoldS
    | some pr =>
        obtain ⟨s1, cr1⟩ := pr
        have hs1 : s1 = histAddAll { s with histogram_ranges := [] } ne :=
          foldNewly_eq_histAddAll hfold
        have hlab1 : s1.bucket_labels = (histAddAll s ne).bucket_labels := by
          rw [hs1, histAddAll_ranges_irrel]
        have hInv0 : Invariant { s with histogram_ranges := [] } :=
          ⟨hInv.1, hInv.2.1, hInv.2.2⟩
        have hInv1 : Invariant s1 := by
          rw [hs1]
          exact histAddAll_invariant hInv0 ne
        have hlk : ∀ l ∈ s1.bucket_labels.insertionSort (· ≤ ·),
            (mapLookup l s1.histogram).isSome := by
          intro l hl
          have hl1 : l ∈ s1.bucket_labels := ((List.perm_insertionSort _ _).mem_iff).mp hl
          have hk : l ∈ mapKeys s1.histogram := hInv1.2.1.mem_iff.mp hl1
          exact (mem_mapKeys_iff_lookup_isSome l s1.histogram).mp hk
        have hbrS := buildRanges_isSome s1.total_samples hlk 0 []
        simp only
        cases hbr : buildRanges s1.histogram s1.total_samples
            (s1.bucket_labels.insertionSort (· ≤ ·)) 0 [] with
        | none => rw [hbr] at hbrS; cases hbrS
        | some ranges =>
            have hcr1len : cr1.length = cr.length := foldNewly_length hfold
            have hrecS : (recolourAll ranges ap 0 cr1).isSome := by
              refine recolourAll_isSome ?_
              intro j hj
              have hjap : j < ap.length := by omega
              refine ⟨ap[j], by simp [List.getElem?_eq_getElem hjap], ?_⟩
              intro hesc
              have hmem : ap[j] ∈ ap := List.getElem_mem hjap
              have hbl : ap[j].iteration_count ∈ s1.bucket_labels := by
                rw [hlab1]
                exact hbuck ap[j] hmem hesc
              have hls : ap[j].iteration_count ∈ s1.bucket_labels.insertionSort (· ≤ ·) :=
                ((List.perm_insertionSort _ _).mem_iff).mpr hbl
              exact buildRanges_lookup_isSome_of_mem hbr hls
            simp only
            cases hrec : recolourAll ranges ap 0 cr1 with
            | none => rw [hrec] at hrecS; cases hrecS
            | some cr2 => rfl

/-- C9 amended: the claimed preconditions, strengthened with the histogram
state invariant, are sufficient for `update_colours` not to panic: if every
newly escaped pixel's index is within `colour_ranges`, `all_pixels` covers
`colour_ranges`, every escaped pixel of `all_pixels` has its iteration
count among the bucket labels after folding in the newly escaped pixels,
and `bucket_labels` lists exactly the histogram's keys, then all
out-of-bounds and lookup-failure branches are unreachable.  (They are not
necessary: pixels at indices at or beyond `colour_ranges.len()` are never
read.) -/
theorem updateColours_no_panic {s : HistogramColouring} {sz : Size}
    {ap ne : List Pixel} {cr : List ColourRange} (hInv : Invariant s)
    (hidx : ∀ q ∈ ne, q.y * sz.width + q.x < cr.length)
    (hlen : cr.length ≤ ap.length)
    (hbuck : ∀ p ∈ ap, p.escaped = 1 →
      p.iteration_count ∈ (histAddAll s ne).bucket_labels) :
    (updateColours s sz ap ne cr).isSome :=
  updateColours_isSome_aux hInv hidx hlen hbuck

/-- C9 amended witness: the concrete two-pixel run satisfies the
preconditions and does not panic. -/
theorem updateColours_no_panic_witness :
    Invariant HistogramColouring.new ∧
      (∀ q ∈ ([pixA, pixB] : List Pixel),
        q.y * sz2.width + q.x < ([cr0, cr0] : List ColourRange).length) ∧
      ([cr0, cr0] : List ColourRange).length ≤ ([pixA, pixB] : List Pixel).length ∧
      (∀ p ∈ ([pixA, pixB] : List Pixel), p.escaped = 1 →
        p.iteration_count ∈ (histAddAll HistogramColouring.new [pixA, pixB]).bucket_labels) ∧
      (updateColours HistogramColouring.new sz2 [pixA, pixB] [pixA, pixB]
        [cr0, cr0]).isSome :=
  ⟨by decide, by decide, by decide, by decide,
    updateColours_no_panic (by decide) (by decide) (by decide) (by decide)⟩

/-- C7 amended: `mandelbrot_dispatch_size` is panic-free for every
`total_work` below `65536 * (2^32 - 1)` (beyond that the `u32` conversion
of `x` fails — in particular it is total on 32-bit `usize` and on the whole
range the renderer can produce, but not on all of 64-bit `usize`), and
`update_colours` is panic-free under the preconditions of C9. -/
theorem planner_colourer_total :
    (∀ tw : Nat, tw < 65536 * 4294967295 → (mandelbrot_dispatch_size tw).isSome) ∧
      (∀ (s : HistogramColouring) (sz : Size) (ap ne : List Pixel)
          (cr : List ColourRange),
        Invariant s →
        (∀ q ∈ ne, q.y * sz.width + q.x < cr.length) →
        cr.length ≤ ap.length →
        (∀ p ∈ ap, p.escaped = 1 →
          p.iteration_count ∈ (histAddAll s ne).bucket_labels) →
        (updateColours s sz ap ne cr).isSome) := by
  constructor
  · intro tw htw
    have h64 : (1024 * 64 : Nat) = 65536 := by norm_num
    have hdiv : tw / (1024 * 64) + 1 ≤ 4294967295 := by
      rw [h64]
      omega
    simp only [mandelbrot_dispatch_size, u32_try_from, U32_MAX,
      MANDELBROT_DISPATCH_SIZE_Y, MANDELBROT_WORKGROUP_SIZE_Y]
    rw [if_pos hdiv]
    rfl
  · intro s sz ap ne cr hInv hidx hlen hbuck
    exact updateColours_isSome_aux hInv hidx hlen hbuck

/-- C7 amended witness: instantiation at `total_work = 0` and at the
concrete two-pixel colouring run. -/
theorem planner_colourer_total_witness :
    (0 : Nat) < 65536 * 4294967295 ∧ (mandelbrot_dispatch_size 0).isSome ∧
      Invariant HistogramColouring.new ∧
      (updateColours HistogramColouring.new sz2 [pixA, pixB] [pixA, pixB]
        [cr0, cr0]).isSome :=
  ⟨by decide, planner_colourer_total.1 0 (by decide), by decide,
    planner_colourer_total.2 HistogramColouring.new sz2 [pixA, pixB] [pixA, pixB]
      [cr0, cr0] (by decide) (by decide) (by decide) (by decide)⟩

/-- C4 amended: after a successful `update_colours` with non-empty
`newly_escaped`, every grid cell whose pixel in `all_pixels` has
`escaped = 1` — not only the newly escaped ones — has its colour value
equal to `histogram_ranges[iteration_count]`; and, provided every newly
escaped pixel targets a cell whose `all_pixels` entry has `escaped = 1`
(true in the real frame loop, where newly escaped pixels are first written
into the point store), cells whose pixel has `escaped = 0` keep both their
`escaped` flag and their value unchanged. -/
theorem updateColours_recolours_escaped {s s' : HistogramColouring} {sz : Size}
    {ap ne : List Pixel} {cr cr' : List ColourRange} (hne : ne ≠ [])
    (h : updateColours s sz ap ne cr = some (s', cr')) :
    (∀ (i : Nat) (p : Pixel) (c : ColourRange),
      ap[i]? = some p → p.escaped = 1 → cr'[i]? = some c →
      mapLookup p.iteration_count s'.histogram_ranges = some c.value) ∧
    ((∀ q ∈ ne, ∀ p, ap[q.y * sz.width + q.x]? = some p → p.escaped = 1) →
      ∀ (i : Nat) (p : Pixel) (c : ColourRange),
      ap[i]? = some p → p.escaped ≠ 1 → cr[i]? = some c →
      cr'[i]? = some c) := by
  obtain ⟨s1, cr1, ranges, hfold, hbr, hrec, hs'⟩ := updateColours_some_elim hne h
  have hranges : s'.histogram_ranges = ranges := by rw [hs']
  constructor
  · intro i p c hp hesc hc
    have hilt : i < cr'.length := by
      by_contra hge
      rw [List.getElem?_eq_none (by omega)] at hc
      cases hc
    have hlen1 : cr'.length = cr1.length := recolourAll_length hrec
    have hi1 : i < cr1.length := by omega
    have hc1 : cr1[i]? = some cr1[i] := List.getElem?_eq_getElem hi1
    obtain ⟨c', hone, hc'⟩ := recolourAll_getElem hrec i cr1[i] hc1
    have hcc : c = c' := by
      rw [hc] at hc'
      exact Option.some.inj hc'
    rw [Nat.zero_add] at hone
    unfold recolourOne at hone
    simp only [hp] at hone
    rw [if_pos hesc] at hone
    cases hlk : mapLookup p.iteration_count ranges with
    | none => rw [hlk] at hone; cases hone
    | some v =>
        rw [hlk] at hone
        simp only [Option.some.injEq] at hone
        rw [hranges, hlk, hcc, ← hone]
  · intro hcons i p c hp hesc hc
    have hnt : ∀ q ∈ ne, q.y * sz.width + q.x ≠ i := by
      intro q hq he
      refine hesc (hcons q hq p ?_)
      rw [he]
      exact hp
    have hcr1 : cr1[i]? = cr[i]? := foldNewly_getElem_of_not_target hfold hnt
    rw [hc] at hcr1
    obtain ⟨c', hone, hc'⟩ := recolourAll_getElem hrec i c hcr1
    rw [Nat.zero_add] at hone
    unfold recolourOne at hone
    simp only [hp] at hone
    rw [if_neg hesc] at hone
    simp only [Option.some.injEq] at hone
    rw [hc', ← hone]

/-- C4 amended witness: in the concrete two-pixel run, cell 1 (escaped,
iteration count 5) carries exactly the CDF value of bucket 5. -/
theorem updateColours_recolours_escaped_witness :
    ([pixA, pixB] : List Pixel) ≠ [] ∧
      ([pixA, pixB] : List Pixel)[1]? = some pixB ∧ pixB.escaped = 1 ∧
      crEx2[1]? = some (⟨1, (1 : Rat) / 2⟩ : ColourRange) ∧
      mapLookup pixB.iteration_count histEx2.histogram_ranges =
        some (⟨1, (1 : Rat) / 2⟩ : ColourRange).value :=
  ⟨by decide, by decide, by decide, rfl,
    (updateColours_recolours_escaped (by decide) updateColours_ex2).1 1
      pixB ⟨1, (1 : Rat) / 2⟩ (by decide) (by decide) rfl⟩

/-- C7 counterexample: on a 64-bit host, `total_work = 2^48` is a valid
`usize`, but `total_work / 65536 + 1 = 2^32 + 1` does not fit in a `u32`,
so the `try_into().unwrap()` in `mandelbrot_dispatch_size` panics: the
function is not total over all of `usize`. -/
theorem dispatch_size_panics_large :
    mandelbrot_dispatch_size (2 ^ 48) = none := by
  rfl

/-- C4 counterexample: with `all_pixels = [pixLive0]` (`escaped = 0`) but
`newly_escaped = [pixA]` targeting the same cell, `update_colours` sets the
cell's `escaped` flag to `1` even though its pixel in `all_pixels` has
`escaped = 0`, so that cell does not keep its `escaped` flag unchanged. -/
theorem updateColours_flags_cell_of_unescaped_pixel :
    (updateColours HistogramColouring.new sz1 [pixLive0] [pixA] [cr0]).map
        (fun r => r.2.map ColourRange.escaped) = some [1] ∧
      pixLive0.escaped = 0 ∧ [cr0].map ColourRange.escaped = [0] := by
  decide

/-- C9 counterexample: `pixStray` sits in `all_pixels` with `escaped = 1`
and an iteration count (99) that is not a histogram bucket after folding in
`newly_escaped = [pixA]`, so the claimed precondition fails — yet
`update_colours` does not panic, because `pixStray`'s index (1) is beyond
`colour_ranges.len()` (1) and is never read.  The stated preconditions are
therefore not necessary for panic-freedom. -/
theorem updateColours_succeeds_without_claimed_precondition :
    (updateColours HistogramColouring.new sz1 [pixLive0, pixStray] [pixA] [cr0]).isSome
        = true ∧
      pixStray.escaped = 1 ∧
      [pixLive0, pixStray].length ≥ [cr0].length ∧
      pixStray.iteration_count ∉
        (histAddAll HistogramColouring.new [pixA]).bucket_labels := by
  decide

end Mandelbrot
